import Mathlib

/-!
Shallow embedding of the AST core of the ply tracing-script compiler
(`src/lang/ast.c`): the node model, the generic pre/post-order walker,
the node constructors, the per-probe register and stack allocators, the
ancestor query `node_get_stmt`, and the destruction walk `node_free`.

Conventions used throughout:

* C sibling chains (`node_t *next`) are modelled as `List Node`; a null
  optional pointer is `Option.none`.
* Callback contexts (`void *ctx`) are modelled by explicit state passing:
  a callback `int (*f)(node_t *n, void *ctx)` becomes
  `Node → σ → Int × σ`, returning the status and the updated context.
* The C idiom `err = f(...); if (err) return err;` followed by the rest
  of the function body is modelled by the combinator `wbind`: the
  continuation runs only when the status is zero.
* Heap effects of the destructor are modelled symbolically: `_node_free`
  is mapped to the list of resources it releases.
-/

set_option maxHeartbeats 1000000

/-- Modelled from the spec: the binary-operator tag `op_t` lives in the
header `ply/ast.h`, which is not among the sources; only the comparison
operator used by the end-to-end example is needed here, since the walker
and the destructor never inspect the operator. -/
inductive Op where
  | gt
  | other (code : Nat)

/-- The tagged node variant `node_t` of the AST as used by
`src/lang/ast.c`: one constructor per `type_t` tag, with the payload
fields the code reads.  Cached fields established by the constructors
(`n_vargs`, `then_last`) are carried explicitly.  `noneT` is `TYPE_NONE`
and `stack` is the internal `TYPE_STACK` variant. -/
inductive Node where
  | script (probes : List Node)
  | probe (pspec : String) (pred : Option Node) (stmts : List Node)
  | iff (cond : Node) (thens : List Node) (els : Option (List Node)) (then_last : Option Node)
  | unroll (count : Int) (stmts : List Node)
  | call (module : Option String) (func : String) (vargs : List Node) (n_vargs : Nat)
  | method (map : Node) (call : Node)
  | assign (lval : Node) (expr : Option Node)
  | binop (op : Op) (left : Node) (right : Node)
  | not (expr : Node)
  | map (name : String) (record : Node)
  | record (vargs : List Node) (n_vargs : Nat)
  | var (name : String)
  | str (val : String)
  | int (val : Int)
  | brk
  | cont
  | ret
  | noneT
  | stack

/-- Status-passing sequencing: models `err = ...; if (err) return err;`
followed by the rest of the function body. -/
def wbind {σ : Type} (r : Int × σ) (k : σ → Int × σ) : Int × σ :=
  if r.1 = 0 then k r.2 else r

/-- Models `cb ? cb(n, ctx) : 0` for an optional callback. -/
def applyCb {σ : Type} (cb : Option (Node → σ → Int × σ)) (n : Node) (ctx : σ) : Int × σ :=
  match cb with
  | some f => f n ctx
  | none => (0, ctx)

mutual

/-- `node_walk` (ast.c:557): run the `pre` callback, descend into the
children in the kind-specific order, run the `post` callback; any
non-zero status returns immediately. -/
def node_walk {σ : Type} (pre post : Option (Node → σ → Int × σ)) (n : Node) (ctx : σ) :
    Int × σ :=
  wbind (applyCb pre n ctx) (fun c1 =>
    wbind (node_walk_children pre post n c1) (fun c2 => applyCb post n c2))
termination_by (sizeOf n, 1)

/-- The `switch (n->type)` of `node_walk`: descend into the children in
the fixed kind-specific order; `TYPE_NONE` returns `-1`; the leaf kinds
fall to the `default` branch and do nothing. -/
def node_walk_children {σ : Type} (pre post : Option (Node → σ → Int × σ)) :
    Node → σ → Int × σ
  | .script probes, ctx => _node_walk_list pre post probes ctx
  | .probe _ pred stmts, ctx =>
    (match pred with
     | some p => wbind (node_walk pre post p ctx) (fun c => _node_walk_list pre post stmts c)
     | none => _node_walk_list pre post stmts ctx)
  | .iff cond thens els _, ctx =>
    wbind (node_walk pre post cond ctx) (fun c =>
      wbind (_node_walk_list pre post thens c) (fun c2 =>
        match els with
        | some l => _node_walk_list pre post l c2
        | none => (0, c2)))
  | .unroll _ stmts, ctx => _node_walk_list pre post stmts ctx
  | .call _ _ vargs _, ctx => _node_walk_list pre post vargs ctx
  | .method m c, ctx => wbind (node_walk pre post m ctx) (fun cc => node_walk pre post c cc)
  | .assign lval expr, ctx =>
    wbind (node_walk pre post lval ctx) (fun c =>
      match expr with
      | some e => node_walk pre post e c
      | none => (0, c))
  | .binop _ l r, ctx => wbind (node_walk pre post l ctx) (fun c => node_walk pre post r c)
  | .not e, ctx => node_walk pre post e ctx
  | .map _ r, ctx => node_walk pre post r ctx
  | .record vargs _, ctx => _node_walk_list pre post vargs ctx
  | .noneT, ctx => (-1, ctx)
  | .brk, ctx => (0, ctx)
  | .cont, ctx => (0, ctx)
  | .ret, ctx => (0, ctx)
  | .var _, ctx => (0, ctx)
  | .str _, ctx => (0, ctx)
  | .int _, ctx => (0, ctx)
  | .stack, ctx => (0, ctx)
termination_by n _ => (sizeOf n, 0)

/-- `_node_walk_list` (ast.c:540): iterate the sibling list, stopping at
the first non-zero status (the C loop saves `elem->next` before each
visit, which the list model renders directly). -/
def _node_walk_list {σ : Type} (pre post : Option (Node → σ → Int × σ)) :
    List Node → σ → Int × σ
  | [], ctx => (0, ctx)
  | elem :: rest, ctx =>
    wbind (node_walk pre post elem ctx) (fun c => _node_walk_list pre post rest c)
termination_by l _ => (sizeOf l, 0)

end

/-- Callback-invocation events of a walk: `epre n` / `epost n` are calls
of the pre/post callback on `n`; `efail` is the forced `return -1` the
walker performs on a `TYPE_NONE` node. -/
inductive WalkEvent where
  | epre (n : Node)
  | epost (n : Node)
  | efail

mutual

/-- Modelled from the spec (§4.2): the fixed, kind-specific order in
which a walk descends into the children of a node.  This is the
refinement-side description of the traversal order, to be compared with
`node_walk_children`. -/
def child_events : Node → List WalkEvent
  | .script probes => events_list probes
  | .probe _ pred stmts =>
    (match pred with
     | some p => events p
     | none => []) ++ events_list stmts
  | .iff cond thens els _ =>
    events cond ++ events_list thens ++
      (match els with
       | some l => events_list l
       | none => [])
  | .unroll _ stmts => events_list stmts
  | .call _ _ vargs _ => events_list vargs
  | .method m c => events m ++ events c
  | .assign lval expr =>
    events lval ++
      (match expr with
       | some e => events e
       | none => [])
  | .binop _ l r => events l ++ events r
  | .not e => events e
  | .map _ r => events r
  | .record vargs _ => events_list vargs
  | .noneT => [WalkEvent.efail]
  | .brk => []
  | .cont => []
  | .ret => []
  | .var _ => []
  | .str _ => []
  | .int _ => []
  | .stack => []
termination_by n => (sizeOf n, 0)

/-- Modelled from the spec (§4.2): the full sequence of callback
invocations a walk of `n` performs when nothing aborts: `pre` on `n`,
the children in order, then `post` on `n` (no `post` after the forced
failure of a `TYPE_NONE` node). -/
def events (n : Node) : List WalkEvent :=
  WalkEvent.epre n ::
    (child_events n ++
      (match n with
       | .noneT => []
       | _ => [WalkEvent.epost n]))
termination_by (sizeOf n, 1)

/-- Traversal order of a sibling list: element subtrees in list order. -/
def events_list : List Node → List WalkEvent
  | [] => []
  | n :: rest => events n ++ events_list rest
termination_by l => (sizeOf l, 0)

end

/-- Run one event: dispatch to the corresponding optional callback;
`efail` yields the walker's own `-1` status. -/
def applyEvent {σ : Type} (pre post : Option (Node → σ → Int × σ)) :
    WalkEvent → σ → Int × σ
  | .epre n, ctx => applyCb pre n ctx
  | .epost n, ctx => applyCb post n ctx
  | .efail, ctx => (-1, ctx)

/-- Modelled from the spec (§4.2, §8.4): process the events of a walk in
order, stopping at the first non-zero status, which becomes the overall
result unchanged; if every event returns zero the result is zero. -/
def runEvents {σ : Type} (pre post : Option (Node → σ → Int × σ)) :
    List WalkEvent → σ → Int × σ
  | [], ctx => (0, ctx)
  | e :: rest, ctx => wbind (applyEvent pre post e ctx) (runEvents pre post rest)

/-- The `node_foreach` counting loop of `node_rec_new` / `node_call_new`
(ast.c:337, ast.c:424): starting from the calloc-zeroed count, add one
per sibling-list element. -/
def node_list_count : List Node → Nat → Nat
  | [], acc => acc
  | _ :: rest, acc => node_list_count rest (acc + 1)

/-- The `node_foreach` loop of `node_if_new` (ast.c:441): remember the
element with no `next` sibling; stays null for an empty list. -/
def node_list_last : List Node → Option Node
  | [] => Option.none
  | [x] => some x
  | _ :: rest => node_list_last rest

/-- `node_str_new` (ast.c:315). -/
def node_str_new (val : String) : Node := .str val

/-- `node_int_new` (ast.c:323). -/
def node_int_new (val : Int) : Node := .int val

/-- `node_rec_new` (ast.c:331): record node with the cached `n_vargs`
count computed by the counting loop. -/
def node_rec_new (vargs : List Node) : Node :=
  .record vargs (node_list_count vargs 0)

/-- `node_map_new` (ast.c:344): a missing key record defaults to a
record holding a single empty-string key. -/
def node_map_new (name : String) (r : Option Node) : Node :=
  .map name
    (match r with
     | some rr => rr
     | none => node_rec_new [node_str_new ("")])

/-- `node_var_new` (ast.c:358). -/
def node_var_new (name : String) : Node := .var name

/-- `node_not_new` (ast.c:366). -/
def node_not_new (expr : Node) : Node := .not expr

/-- `node_binop_new` (ast.c:376). -/
def node_binop_new (left : Node) (op : Op) (right : Node) : Node :=
  .binop op left right

/-- `node_assign_new` (ast.c:389): also strdups the string "=" into the
node's string slot (modelled in `node_frees` / `owned_strings`). -/
def node_assign_new (lval : Node) (expr : Option Node) : Node :=
  .assign lval expr

/-- `node_method_new` (ast.c:403): stamps the implicit pseudo-module
string "method" onto the inner call node.  The C writes through the
`call` union member; callers only ever pass call nodes. -/
def node_method_new (m : Node) (c : Node) : Node :=
  match c with
  | .call _ func vargs k => .method m (.call (some ("method")) func vargs k)
  | _ => .method m c

/-- `node_call_new` (ast.c:416): call node with the cached `n_vargs`
count computed by the counting loop. -/
def node_call_new (module : Option String) (func : String) (vargs : List Node) : Node :=
  .call module func vargs (node_list_count vargs 0)

/-- `node_if_new` (ast.c:431): caches the last element of the then-list. -/
def node_if_new (cond : Node) (thens : List Node) (els : Option (List Node)) : Node :=
  .iff cond thens els (node_list_last thens)

/-- `node_unroll_new` (ast.c:455). -/
def node_unroll_new (count : Int) (stmts : List Node) : Node :=
  .unroll count stmts

/-- `node_probe_new` (ast.c:467). -/
def node_probe_new (pspec : String) (pred : Option Node) (stmts : List Node) : Node :=
  .probe pspec pred stmts

/-- `node_script_new` (ast.c:484). -/
def node_script_new (probes : List Node) : Node := .script probes

/-- The per-probe register-allocator state: the two availability
bitmasks `stat_regs` / `dyn_regs` of the probe's `dyn` annotation,
C `int` bit patterns modelled as natural numbers. -/
structure ProbeRegs where
  stat_regs : Nat
  dyn_regs : Nat

/-- `*pool &= ~(1 << reg)` on a 32-bit C `int`. -/
def clear_bit (pool reg : Nat) : Nat :=
  pool &&& ((2 ^ 32 - 1) ^^^ (1 <<< reg))

/-- The scan loop of `node_probe_reg_get` (ast.c:283): try each
candidate register in order, returning the first one whose bit is set
in both masks; the candidate order is the loop
`for (reg = BPF_REG_6; reg < BPF_REG_9; reg++)`, i.e. `[6, 7, 8]`. -/
def reg_scan (pool other : Nat) : List Nat → Option Nat
  | [] => Option.none
  | reg :: rest =>
    if pool &&& other &&& (1 <<< reg) ≠ 0 then some reg
    else reg_scan pool other rest

/-- The register file scanned by `node_probe_reg_get`:
`BPF_REG_6`, `BPF_REG_7`, `BPF_REG_8`. -/
def bpf_scratch_regs : List Nat := [6, 7, 8]

/-- `node_probe_reg_get` (ast.c:270): pick the requested class's mask as
the pool and the other class's mask as the complement, return the first
register available in both (clearing its bit in the pool only), or the
sentinel `-1` when no register qualifies. -/
def node_probe_reg_get (dynamic : Bool) (s : ProbeRegs) : Int × ProbeRegs :=
  let pool := if dynamic then s.dyn_regs else s.stat_regs
  let other := if dynamic then s.stat_regs else s.dyn_regs
  match reg_scan pool other bpf_scratch_regs with
  | some reg =>
    (Int.ofNat reg,
     if dynamic then { s with dyn_regs := clear_bit pool reg }
     else { s with stat_regs := clear_bit pool reg })
  | Option.none => (-1, s)

/-- A sequence of acquire calls on one probe's allocator, one Bool per
call (`true` = dynamic class): the list of returned values and the
final allocator state. -/
def reg_get_run : List Bool → ProbeRegs → List Int × ProbeRegs
  | [], s => ([], s)
  | b :: bs, s =>
    let r := node_probe_reg_get b s
    let rest := reg_get_run bs r.2
    (r.1 :: rest.1, rest.2)

/-- The values returned by a sequence of acquire calls. -/
def reg_get_results (reqs : List Bool) (s : ProbeRegs) : List Int :=
  (reg_get_run reqs s).1

/-- Modelled from the spec (§4.3): both masks start as the full register
set; the initialisation site is outside `ast.c`.  Bits 6, 7, 8 set:
`0x1c0`. -/
def probe_regs_init : ProbeRegs := { stat_regs := 0x1c0, dyn_regs := 0x1c0 }

/-- Reduction of an unbounded integer to the signed 64-bit value with
the same bit pattern.  The C compound assignment `sp -= size` with
`ssize_t sp` and `size_t size` converts `sp` to `size_t`, subtracts
modulo 2^64, and stores the result back as a two's-complement
`ssize_t`. -/
def wrap64 (x : Int) : Int :=
  let m := x % (2 ^ 64)
  if m < 2 ^ 63 then m else m - 2 ^ 64

/-- `node_probe_stack_get` (ast.c:293) acting on the probe's stack
pointer `dyn->probe.sp` (a signed `ssize_t`): subtract the size with
the wrapping 64-bit arithmetic of `sp -= size`, return the new offset;
the pair is (returned offset, new stack pointer). -/
def node_probe_stack_get (sp : Int) (size : Nat) : Int × Int :=
  let sp' := wrap64 (sp - (size : Int))
  (sp', sp')

/-- Offsets returned by a sequence of stack acquire calls. -/
def stack_get_offsets : Int → List Nat → List Int
  | _, [] => []
  | sp, s :: rest =>
    let r := node_probe_stack_get sp s
    r.1 :: stack_get_offsets r.2 rest

/-- Discriminates probe nodes (`n->type == TYPE_PROBE`). -/
def is_probe : Node → Bool
  | .probe _ _ _ => true
  | _ => false

/-- `node_get_stmt` (ast.c:244) over the parent chain of a node: the
input list is the node itself followed by its ancestors in order (the
`parent` links).  The loop `for (; n; n = n->parent)` tests
`n->parent->type == TYPE_PROBE` without a null check, so reaching the
root (whose parent chain ends) dereferences null: that outcome is
`Except.error ()`.  An initially null `n` falls out of the loop and
returns null (`Except.ok Option.none`). -/
def node_get_stmt : List Node → Except Unit (Option Node)
  | [] => .ok Option.none
  | n :: rest =>
    match rest with
    | [] => .error ()
    | p :: _ => if is_probe p then .ok (some n) else node_get_stmt rest

/-- A heap resource released during destruction: a node, the node's
exclusively-owned `dyn` annotation (identified by its owning node), or a
heap string. -/
inductive Resource where
  | rnode (n : Node)
  | rdyn (n : Node)
  | rstr (s : String)

/-- The resources `_node_free` (ast.c:510) releases for one node: the
owned strings of the switch (call frees its module, then falls through
to free the function name; probe, assign, map and string-literal nodes
free `n->string`; an assign node's string is the "=" its constructor
strdup'd), then the `dyn` annotation unless the node is a map or a var
(their `dyn` is shared with the symbol table), then the node itself. -/
def node_frees (n : Node) : List Resource :=
  (match n with
   | .call module func _ _ =>
     (match module with
      | some ms => [Resource.rstr ms]
      | Option.none => []) ++ [Resource.rstr func]
   | .probe pspec _ _ => [Resource.rstr pspec]
   | .assign _ _ => [Resource.rstr ("=")]
   | .map name _ => [Resource.rstr name]
   | .str val => [Resource.rstr val]
   | _ => []) ++
  (match n with
   | .map _ _ => []
   | .var _ => []
   | _ => [Resource.rdyn n]) ++
  [Resource.rnode n]

/-- `_node_free` as a post callback over the symbolic heap: always
returns status 0 and appends the released resources. -/
def _node_free (n : Node) (freed : List Resource) : Int × List Resource :=
  (0, freed ++ node_frees n)

/-- `node_free` (ast.c:535): one post-order destruction walk; the value
is the list of resources released, in release order. -/
def node_free (n : Node) : List Resource :=
  (node_walk Option.none (some _node_free) n []).2

/-- Modelled from the spec (§4.1): the heap strings whose ownership a
node's constructor takes, per node: the probe's pattern string, the
call's function name and optional module, the "=" string an assign
node's constructor strdups for itself, the map's name, the var's name,
and a string literal's value. -/
def owned_strings : Node → List String
  | .probe pspec _ _ => [pspec]
  | .call module func _ _ =>
    (match module with
     | some ms => [ms]
     | Option.none => []) ++ [func]
  | .assign _ _ => [("=")]
  | .map name _ => [name]
  | .var name => [name]
  | .str val => [val]
  | _ => []

mutual

/-- Post-order listing of the nodes of a subtree, in the walker's
child order: all children post-order, then the node itself. -/
def postorder : Node → List Node
  | .script probes => postorder_list probes ++ [.script probes]
  | .probe pspec pred stmts =>
    (match pred with
     | some p => postorder p
     | Option.none => []) ++ postorder_list stmts ++ [.probe pspec pred stmts]
  | .iff cond thens els tl =>
    postorder cond ++ postorder_list thens ++
      (match els with
       | some l => postorder_list l
       | Option.none => []) ++ [.iff cond thens els tl]
  | .unroll count stmts => postorder_list stmts ++ [.unroll count stmts]
  | .call module func vargs k => postorder_list vargs ++ [.call module func vargs k]
  | .method m c => postorder m ++ postorder c ++ [.method m c]
  | .assign lval expr =>
    postorder lval ++
      (match expr with
       | some e => postorder e
       | Option.none => []) ++ [.assign lval expr]
  | .binop op l r => postorder l ++ postorder r ++ [.binop op l r]
  | .not e => postorder e ++ [.not e]
  | .map name r => postorder r ++ [.map name r]
  | .record vargs k => postorder_list vargs ++ [.record vargs k]
  | .var name => [.var name]
  | .str val => [.str val]
  | .int val => [.int val]
  | .brk => [.brk]
  | .cont => [.cont]
  | .ret => [.ret]
  | .noneT => [.noneT]
  | .stack => [.stack]
termination_by n => (sizeOf n, 1)

/-- Post-order listing of a sibling list's subtrees. -/
def postorder_list : List Node → List Node
  | [] => []
  | n :: rest => postorder n ++ postorder_list rest
termination_by l => (sizeOf l, 0)

end

mutual

/-- True when the subtree contains no `TYPE_NONE` node; trees built by
the constructors always satisfy this (no constructor makes one). -/
def no_none : Node → Bool
  | .script probes => no_none_list probes
  | .probe _ pred stmts =>
    (match pred with
     | some p => no_none p
     | Option.none => true) && no_none_list stmts
  | .iff cond thens els _ =>
    no_none cond && no_none_list thens &&
      (match els with
       | some l => no_none_list l
       | Option.none => true)
  | .unroll _ stmts => no_none_list stmts
  | .call _ _ vargs _ => no_none_list vargs
  | .method m c => no_none m && no_none c
  | .assign lval expr =>
    no_none lval &&
      (match expr with
       | some e => no_none e
       | Option.none => true)
  | .binop _ l r => no_none l && no_none r
  | .not e => no_none e
  | .map _ r => no_none r
  | .record vargs _ => no_none_list vargs
  | .noneT => false
  | _ => true
termination_by n => (sizeOf n, 1)

/-- `no_none` over a sibling list. -/
def no_none_list : List Node → Bool
  | [] => true
  | n :: rest => no_none n && no_none_list rest
termination_by l => (sizeOf l, 0)

end

theorem wbind_zero {σ : Type} (c : σ) (k : σ → Int × σ) : wbind (0, c) k = k c := by
  simp [wbind]

theorem wbind_ne_zero {σ : Type} (r : Int × σ) (k : σ → Int × σ) (h : r.1 ≠ 0) :
    wbind r k = r := by
  simp [wbind, h]

theorem wbind_assoc {σ : Type} (x : Int × σ) (f g : σ → Int × σ) :
    wbind (wbind x f) g = wbind x (fun c => wbind (f c) g) := by
  rcases x with ⟨a, b⟩
  by_cases h : a = 0 <;> simp [wbind, h]

theorem wbind_pure {σ : Type} (r : Int × σ) : wbind r (fun c => ((0 : Int), c)) = r := by
  rcases r with ⟨a, b⟩
  by_cases h : a = 0 <;> simp [wbind, h]

theorem wbind_congr {σ : Type} (x : Int × σ) {f g : σ → Int × σ}
    (h : ∀ c, f c = g c) : wbind x f = wbind x g := by
  rcases x with ⟨a, b⟩
  by_cases ha : a = 0 <;> simp [wbind, ha, h]

theorem runEvents_append {σ : Type} (pre post : Option (Node → σ → Int × σ))
    (l1 l2 : List WalkEvent) (ctx : σ) :
    runEvents pre post (l1 ++ l2) ctx
      = wbind (runEvents pre post l1 ctx) (runEvents pre post l2) := by
  induction l1 generalizing ctx with
  | nil => simp [runEvents, wbind]
  | cons e l1 ih =>
    simp only [List.cons_append, runEvents, wbind_assoc]
    exact wbind_congr _ fun c => ih c

theorem runEvents_post_single {σ : Type} (pre post : Option (Node → σ → Int × σ))
    (n : Node) (ctx : σ) :
    runEvents pre post [WalkEvent.epost n] ctx = applyCb post n ctx := by
  simp only [runEvents, applyEvent]
  exact wbind_pure _

theorem wrap64_id (x : Int) (h1 : -(2 ^ 63) ≤ x) (h2 : x < 2 ^ 63) : wrap64 x = x := by
  simp only [wrap64]
  split <;> omega

/-- C10 fails as stated: the compound assignment `sp -= size` wraps
modulo 2^64, so the returned offset is not always the exact difference
of stack pointer and size: from stack pointer 0 a request of size
2^64 - 1 returns offset 1, not -(2^64 - 1). -/
theorem node_probe_stack_get_wrap_cex :
    (node_probe_stack_get 0 (2 ^ 64 - 1)).1 = 1 ∧
    (0 : Int) - ((2 ^ 64 - 1 : Nat) : Int) ≠ 1 := by
  constructor
  · decide
  · decide

/-- C10, amended: `node_probe_stack_get` has no failure sentinel and
performs no bounds or alignment check — it always succeeds, storing and
returning the previous stack pointer minus the requested size in the
wrapping 64-bit arithmetic of `sp -= size`.  Whenever the current stack
pointer is a representable `ssize_t` and the decremented result does
not fall below the `ssize_t` minimum (as in any real probe
compilation), the returned offset is exactly the previous stack pointer
minus the requested size, and in particular a request of size 0 returns
the current stack pointer unchanged.  (For sizes so large that the
subtraction wraps, the exact-difference reading fails, see
`node_probe_stack_get_wrap_cex`.) -/
theorem node_probe_stack_get_total (sp : Int) (size : Nat)
    (hhi : sp < 2 ^ 63) (hlo : -(2 ^ 63) ≤ sp - (size : Int)) :
    node_probe_stack_get sp size = (sp - (size : Int), sp - (size : Int)) ∧
    node_probe_stack_get sp 0 = (sp, sp) := by
  have h1 : -(2 ^ 63) ≤ sp := by omega
  have h2 : sp - (size : Int) < 2 ^ 63 := by omega
  refine ⟨?_, ?_⟩
  · simp only [node_probe_stack_get]
    rw [wrap64_id _ hlo h2]
  · simp only [node_probe_stack_get, Nat.cast_zero, sub_zero]
    rw [wrap64_id _ h1 hhi]

theorem node_probe_stack_get_total_witness :
    ((0 : Int) < 2 ^ 63) ∧ (-(2 ^ 63) ≤ (0 : Int) - ((16 : Nat) : Int)) ∧
    (node_probe_stack_get 0 16 = (-16, -16) ∧ node_probe_stack_get 0 0 = (0, 0)) :=
  ⟨by decide, by decide, node_probe_stack_get_total 0 16 (by decide) (by decide)⟩

/-- C3 fails as stated: with a request of size 0 the returned offsets
are not strictly decreasing — two acquire calls of sizes 0, 0 from
stack pointer 0 both return offset 0. -/
theorem stack_offsets_zero_size_cex :
    ¬ List.Chain' (fun a b => b < a) (stack_get_offsets 0 [0, 0]) := by
  intro hc
  have h : stack_get_offsets 0 [0, 0] = [0, 0] := by decide
  rw [h, List.chain'_cons] at hc
  exact lt_irrefl 0 hc.1

/-- Modelled from the spec (§4.3): the exact-subtraction reference run
of the stack allocator (`acquire(size)` subtracts `size` from the
current offset), to be compared with `stack_get_offsets`; the two agree
whenever no call wraps. -/
def stack_offsets_exact : Int → List Nat → List Int
  | _, [] => []
  | sp, s :: rest => (sp - (s : Int)) :: stack_offsets_exact (sp - (s : Int)) rest

theorem stack_get_offsets_no_wrap : ∀ (sizes : List Nat) (sp : Int),
    sp < 2 ^ 63 → -(2 ^ 63) ≤ sp - (sizes.sum : Int) →
    stack_get_offsets sp sizes = stack_offsets_exact sp sizes
  | [], _, _, _ => rfl
  | s :: rest, sp, hhi, hlo => by
    have hsum : ((s :: rest).sum : Int) = (s : Int) + (rest.sum : Int) := by
      push_cast [List.sum_cons]
      ring
    have h1 : -(2 ^ 63) ≤ sp - (s : Int) := by omega
    have h2 : sp - (s : Int) < 2 ^ 63 := by omega
    have h3 : -(2 ^ 63) ≤ (sp - (s : Int)) - (rest.sum : Int) := by omega
    have hw : wrap64 (sp - (s : Int)) = sp - (s : Int) := wrap64_id _ h1 h2
    simp only [stack_get_offsets, node_probe_stack_get]
    rw [hw, stack_get_offsets_no_wrap rest (sp - (s : Int)) h2 h3]
    simp only [stack_offsets_exact]

theorem stack_offsets_exact_chain (sp : Int) (sizes : List Nat)
    (hpos : ∀ s ∈ sizes, 0 < s) :
    List.Chain' (fun a b => b < a) (stack_offsets_exact sp sizes) := by
  induction sizes generalizing sp with
  | nil => simp [stack_offsets_exact]
  | cons s rest ih =>
    have hrest : ∀ x ∈ rest, 0 < x := fun x hx => hpos x (List.mem_cons_of_mem s hx)
    rcases rest with _ | ⟨s2, rest'⟩
    · simp [stack_offsets_exact]
    · have hs2 : 0 < s2 := hrest s2 (List.mem_cons_self s2 rest')
      have htail := ih (sp - (s : Int)) hrest
      simp only [stack_offsets_exact] at htail ⊢
      refine List.chain'_cons.mpr ⟨?_, htail⟩
      show (sp - (s : Int)) - (s2 : Int) < sp - (s : Int)
      omega

theorem stack_offsets_exact_gap : ∀ (sizes : List Nat) (sp : Int) (i : Nat),
    i + 1 < sizes.length →
    (stack_offsets_exact sp sizes).getD i 0 - (stack_offsets_exact sp sizes).getD (i + 1) 0
      = ((sizes.getD (i + 1) 0 : Nat) : Int)
  | [], _, _, h => by simp at h
  | s :: rest, sp, 0, h => by
    match rest, h with
    | s2 :: rest', _ =>
      simp [stack_offsets_exact]
  | s :: rest, sp, i + 1, h => by
    have h' : i + 1 < rest.length := by
      simpa [Nat.succ_lt_succ_iff] using h
    simpa [stack_offsets_exact, List.getD_cons_succ] using
      stack_offsets_exact_gap rest (sp - (s : Int)) i h'

theorem stack_offsets_exact_closed : ∀ (sizes : List Nat) (sp : Int) (i : Nat),
    i < sizes.length →
    (stack_offsets_exact sp sizes).getD i 0 = sp - ((sizes.take (i + 1)).sum : Int)
  | [], _, _, h => by simp at h
  | s :: rest, sp, 0, _ => by simp [stack_offsets_exact]
  | s :: rest, sp, i + 1, h => by
    have h' : i < rest.length := by
      simpa [Nat.succ_lt_succ_iff] using h
    have hrec := stack_offsets_exact_closed rest (sp - (s : Int)) i h'
    simp only [stack_offsets_exact, List.getD_cons_succ, hrec, List.take_succ_cons,
      List.sum_cons]
    push_cast
    ring

/-- C3, amended: provided every requested size is positive and the run
does not wrap — the initial stack pointer is a representable `ssize_t`
and the total requested size keeps the final offset above the `ssize_t`
minimum, as in any real probe compilation — the offsets returned by a
sequence of stack acquire calls are strictly decreasing, the gap
between consecutive offsets equals the size requested by the later of
the two calls, and the i-th offset is exactly the initial stack pointer
minus the sizes requested so far: each call subtracts its size argument
from the probe's current stack offset and returns the new offset as the
base of the allocated region.  (As stated the claim fails for size-0
requests, see `stack_offsets_zero_size_cex`; without the no-wrap bound
it would also fail for sizes of the order of 2^64, where `sp -= size`
wraps.) -/
theorem stack_offsets_decreasing (sp : Int) (sizes : List Nat)
    (hpos : ∀ s ∈ sizes, 0 < s)
    (hhi : sp < 2 ^ 63)
    (hlo : -(2 ^ 63) ≤ sp - (sizes.sum : Int)) :
    List.Chain' (fun a b => b < a) (stack_get_offsets sp sizes) ∧
    (∀ i, i + 1 < sizes.length →
      (stack_get_offsets sp sizes).getD i 0 - (stack_get_offsets sp sizes).getD (i + 1) 0
        = ((sizes.getD (i + 1) 0 : Nat) : Int)) ∧
    (∀ i, i < sizes.length →
      (stack_get_offsets sp sizes).getD i 0 = sp - ((sizes.take (i + 1)).sum : Int)) := by
  rw [stack_get_offsets_no_wrap sizes sp hhi hlo]
  exact ⟨stack_offsets_exact_chain sp sizes hpos,
         fun i h => stack_offsets_exact_gap sizes sp i h,
         fun i h => stack_offsets_exact_closed sizes sp i h⟩

theorem stack_offsets_decreasing_witness :
    (∀ s ∈ ([1, 2] : List Nat), 0 < s) ∧
    ((0 : Int) < 2 ^ 63) ∧
    (-(2 ^ 63) ≤ (0 : Int) - (([1, 2] : List Nat).sum : Int)) ∧
    (List.Chain' (fun a b => b < a) (stack_get_offsets 0 [1, 2]) ∧
      (∀ i, i + 1 < ([1, 2] : List Nat).length →
        (stack_get_offsets 0 [1, 2]).getD i 0 - (stack_get_offsets 0 [1, 2]).getD (i + 1) 0
          = ((([1, 2] : List Nat).getD (i + 1) 0 : Nat) : Int)) ∧
      (∀ i, i < ([1, 2] : List Nat).length →
        (stack_get_offsets 0 [1, 2]).getD i 0
          = 0 - ((([1, 2] : List Nat).take (i + 1)).sum : Int))) :=
  ⟨by decide, by decide, by decide,
   stack_offsets_decreasing 0 [1, 2] (by decide) (by decide) (by decide)⟩

theorem node_list_count_eq : ∀ (l : List Node) (acc : Nat),
    node_list_count l acc = l.length + acc
  | [], acc => by simp [node_list_count]
  | _ :: rest, acc => by
    rw [node_list_count, node_list_count_eq rest (acc + 1)]
    simp [List.length_cons]
    omega

/-- The cached argument count of a call or record node (zero for other
kinds, whose slot the calloc left at zero). -/
def node_n_vargs : Node → Nat
  | .call _ _ _ k => k
  | .record _ k => k
  | _ => 0

/-- C7: for every call node built by `node_call_new` and every record
node built by `node_rec_new`, the cached `n_vargs` equals the actual
length of the supplied argument list (including length 0 when no
arguments are supplied, the empty list). -/
theorem n_vargs_matches_length (module : Option String) (func : String)
    (vargs : List Node) :
    node_n_vargs (node_call_new module func vargs) = vargs.length ∧
    node_n_vargs (node_rec_new vargs) = vargs.length := by
  constructor <;>
    simp [node_call_new, node_rec_new, node_n_vargs, node_list_count_eq]

/-- C8: for a node that lies inside a probe's subtree, `node_get_stmt`
returns the ancestor-or-self whose own parent is the probe node, i.e.
the top-level statement containing the node.  The parent chain is the
node itself followed by its ancestors; `i` is the position of the first
ancestor that is a probe (so no earlier ancestor is one), and the
result is the chain element just below it. -/
theorem node_get_stmt_finds_stmt : ∀ (chain : List Node) (i : Nat) (d : Node),
    i + 1 < chain.length →
    is_probe (chain.getD (i + 1) d) = true →
    (∀ j, j < i → is_probe (chain.getD (j + 1) d) = false) →
    node_get_stmt chain = .ok (some (chain.getD i d))
  | [], i, d, h1, _, _ => by simp at h1
  | [n], 0, d, h1, _, _ => by simp at h1
  | n :: p :: rest', 0, d, _, h2, _ => by
    have hp : is_probe p = true := by simpa [List.getD_cons_succ, List.getD_cons_zero] using h2
    simp [node_get_stmt, hp, List.getD_cons_zero]
  | [n], i + 1, d, h1, _, _ => by simp at h1
  | n :: p :: rest', i + 1, d, h1, h2, h3 => by
    have hp : is_probe p = false := by
      simpa [List.getD_cons_succ, List.getD_cons_zero] using h3 0 (Nat.succ_pos i)
    have h1' : i + 1 < (p :: rest').length := by
      simp only [List.length_cons] at h1 ⊢
      omega
    have h2' : is_probe ((p :: rest').getD (i + 1) d) = true := by
      simpa [List.getD_cons_succ] using h2
    have h3' : ∀ j, j < i → is_probe ((p :: rest').getD (j + 1) d) = false := by
      intro j hj
      simpa [List.getD_cons_succ] using h3 (j + 1) (Nat.succ_lt_succ hj)
    have := node_get_stmt_finds_stmt (p :: rest') i d h1' h2' h3'
    simpa [node_get_stmt, hp, List.getD_cons_succ] using this

theorem node_get_stmt_finds_stmt_witness :
    (0 + 1 < ([node_assign_new (node_var_new ("x")) Option.none,
               node_probe_new ("p") Option.none [],
               node_script_new []] : List Node).length) ∧
    is_probe (([node_assign_new (node_var_new ("x")) Option.none,
               node_probe_new ("p") Option.none [],
               node_script_new []] : List Node).getD (0 + 1) (Node.int 0)) = true ∧
    node_get_stmt [node_assign_new (node_var_new ("x")) Option.none,
               node_probe_new ("p") Option.none [],
               node_script_new []]
      = .ok (some (([node_assign_new (node_var_new ("x")) Option.none,
               node_probe_new ("p") Option.none [],
               node_script_new []] : List Node).getD 0 (Node.int 0))) :=
  ⟨by simp, rfl,
   node_get_stmt_finds_stmt _ 0 (Node.int 0) (by simp) rfl
     (fun j hj => absurd hj (Nat.not_lt_zero j))⟩

/-- C9: `node_walk` on a `TYPE_NONE` node returns `-1` even when the
callbacks return 0: the pre callback runs on the node (its context
update is kept), then the walker returns `-1` without visiting children
and without invoking the post callback (the result does not depend on
`post` at all). -/
theorem node_walk_none_returns_neg_one {σ : Type} (pre : Node → σ → Int × σ)
    (post : Option (Node → σ → Int × σ)) (ctx : σ)
    (h : (pre Node.noneT ctx).1 = 0) :
    node_walk (some pre) post Node.noneT ctx = (-1, (pre Node.noneT ctx).2) := by
  rcases hp : pre Node.noneT ctx with ⟨r, c⟩
  rw [hp] at h
  simp only at h
  rw [node_walk]
  simp [applyCb, hp, h, node_walk_children, wbind]

theorem node_walk_none_returns_neg_one_witness :
    ((fun (_ : Node) (c : Nat) => ((0 : Int), c + 1)) Node.noneT 0).1 = 0 ∧
    node_walk (some (fun (_ : Node) (c : Nat) => ((0 : Int), c + 1)))
        (some (fun (_ : Node) (c : Nat) => ((7 : Int), c + 100))) Node.noneT 0
      = (-1, 1) :=
  ⟨rfl, node_walk_none_returns_neg_one _ _ _ rfl⟩

/-- A register is available to an acquire call exactly when its bit is
set in both masks (the code tests `(*pool) & (*compl) & (1 << reg)`). -/
def reg_avail (s : ProbeRegs) (r : Nat) : Prop :=
  s.stat_regs.testBit r = true ∧ s.dyn_regs.testBit r = true

theorem reg_test_iff (pool other reg : Nat) :
    pool &&& other &&& (1 <<< reg) ≠ 0 ↔
      (pool.testBit reg = true ∧ other.testBit reg = true) := by
  rw [Nat.one_shiftLeft, Nat.and_two_pow, Nat.testBit_land]
  cases hp : pool.testBit reg <;> cases ho : other.testBit reg <;>
    simp [(Nat.two_pow_pos reg).ne']

theorem clear_bit_testBit_self (pool reg : Nat) (h : reg < 32) :
    (clear_bit pool reg).testBit reg = false := by
  show (pool &&& ((2 ^ 32 - 1) ^^^ (1 <<< reg))).testBit reg = false
  rw [Nat.testBit_land, Nat.testBit_xor, Nat.one_shiftLeft,
    Nat.testBit_two_pow_sub_one, Nat.testBit_two_pow_self]
  simp [h]

theorem clear_bit_mono (pool reg i : Nat) (h : (clear_bit pool reg).testBit i = true) :
    pool.testBit i = true := by
  simp only [clear_bit, Nat.testBit_land, Bool.and_eq_true] at h
  exact h.1

theorem reg_scan_some : ∀ (regs : List Nat) (pool other r : Nat),
    reg_scan pool other regs = some r →
    r ∈ regs ∧ pool &&& other &&& (1 <<< r) ≠ 0
  | [], _, _, _, h => by simp [reg_scan] at h
  | reg :: rest, pool, other, r, h => by
    rw [reg_scan] at h
    split at h
    · cases h
      exact ⟨List.mem_cons_self _ _, by assumption⟩
    · have := reg_scan_some rest pool other r h
      exact ⟨List.mem_cons_of_mem _ this.1, this.2⟩

theorem reg_scan_none (regs : List Nat) (pool other : Nat)
    (h : ∀ reg ∈ regs, pool &&& other &&& (1 <<< reg) = 0) :
    reg_scan pool other regs = Option.none := by
  induction regs with
  | nil => rfl
  | cons reg rest ih =>
    rw [reg_scan]
    rw [if_neg (by simpa using h reg (List.mem_cons_self _ _))]
    exact ih fun x hx => h x (List.mem_cons_of_mem _ hx)

theorem reg_get_avail_of_success (b : Bool) (s : ProbeRegs) (r : Nat)
    (h : (node_probe_reg_get b s).1 = Int.ofNat r) : reg_avail s r := by
  cases b with
  | false =>
    simp only [node_probe_reg_get, Bool.false_eq_true, if_false] at h
    split at h
    case _ reg hscan =>
      simp only [Int.ofNat.injEq] at h
      subst h
      have hh := (reg_test_iff _ _ _).mp (reg_scan_some _ _ _ _ hscan).2
      exact ⟨hh.1, hh.2⟩
    case _ => simp at h
  | true =>
    simp only [node_probe_reg_get, if_true] at h
    split at h
    case _ reg hscan =>
      simp only [Int.ofNat.injEq] at h
      subst h
      have hh := (reg_test_iff _ _ _).mp (reg_scan_some _ _ _ _ hscan).2
      exact ⟨hh.2, hh.1⟩
    case _ => simp at h

theorem reg_get_not_avail_after (b : Bool) (s : ProbeRegs) (r : Nat)
    (h : (node_probe_reg_get b s).1 = Int.ofNat r) :
    ¬ reg_avail (node_probe_reg_get b s).2 r := by
  cases b with
  | false =>
    rcases hscan : reg_scan s.stat_regs s.dyn_regs bpf_scratch_regs with _ | reg
    · simp only [node_probe_reg_get, Bool.false_eq_true, if_false, hscan] at h
      have h' : (-1 : Int) = Int.ofNat r := h
      rw [Int.ofNat_eq_natCast] at h'
      omega
    · simp only [node_probe_reg_get, Bool.false_eq_true, if_false, hscan] at h ⊢
      simp only [Int.ofNat.injEq] at h
      subst h
      intro hav
      have hm : reg ∈ bpf_scratch_regs := (reg_scan_some _ _ _ _ hscan).1
      have h32 : reg < 32 := by
        simp [bpf_scratch_regs] at hm
        rcases hm with h | h | h <;> omega
      have hc := clear_bit_testBit_self s.stat_regs reg h32
      rw [reg_avail] at hav
      simp only at hav
      rw [hc] at hav
      exact absurd hav.1 (by simp)
  | true =>
    rcases hscan : reg_scan s.dyn_regs s.stat_regs bpf_scratch_regs with _ | reg
    · simp only [node_probe_reg_get, if_true, hscan] at h
      have h' : (-1 : Int) = Int.ofNat r := h
      rw [Int.ofNat_eq_natCast] at h'
      omega
    · simp only [node_probe_reg_get, if_true, hscan] at h ⊢
      simp only [Int.ofNat.injEq] at h
      subst h
      intro hav
      have hm : reg ∈ bpf_scratch_regs := (reg_scan_some _ _ _ _ hscan).1
      have h32 : reg < 32 := by
        simp [bpf_scratch_regs] at hm
        rcases hm with h | h | h <;> omega
      have hc := clear_bit_testBit_self s.dyn_regs reg h32
      rw [reg_avail] at hav
      simp only at hav
      rw [hc] at hav
      exact absurd hav.2 (by simp)

theorem reg_get_avail_mono (b : Bool) (s : ProbeRegs) (r : Nat)
    (h : reg_avail (node_probe_reg_get b s).2 r) : reg_avail s r := by
  cases b with
  | false =>
    rcases hscan : reg_scan s.stat_regs s.dyn_regs bpf_scratch_regs with _ | reg
    · simpa only [node_probe_reg_get, Bool.false_eq_true, if_false, hscan] using h
    · simp only [node_probe_reg_get, Bool.false_eq_true, if_false, hscan, reg_avail] at h ⊢
      exact ⟨clear_bit_mono _ _ _ h.1, h.2⟩
  | true =>
    rcases hscan : reg_scan s.dyn_regs s.stat_regs bpf_scratch_regs with _ | reg
    · simpa only [node_probe_reg_get, if_true, hscan] using h
    · simp only [node_probe_reg_get, if_true, hscan, reg_avail] at h ⊢
      exact ⟨h.1, clear_bit_mono _ _ _ h.2⟩

theorem reg_get_shape (b : Bool) (s : ProbeRegs) :
    (node_probe_reg_get b s).1 = -1 ∨
      ∃ r, r ∈ bpf_scratch_regs ∧ (node_probe_reg_get b s).1 = Int.ofNat r := by
  cases b with
  | false =>
    rcases hscan : reg_scan s.stat_regs s.dyn_regs bpf_scratch_regs with _ | reg
    · left
      simp [node_probe_reg_get, hscan]
    · right
      exact ⟨reg, (reg_scan_some _ _ _ _ hscan).1, by simp [node_probe_reg_get, hscan]⟩
  | true =>
    rcases hscan : reg_scan s.dyn_regs s.stat_regs bpf_scratch_regs with _ | reg
    · left
      simp [node_probe_reg_get, hscan]
    · right
      exact ⟨reg, (reg_scan_some _ _ _ _ hscan).1, by simp [node_probe_reg_get, hscan]⟩

theorem reg_get_results_cons (b : Bool) (bs : List Bool) (s : ProbeRegs) :
    reg_get_results (b :: bs) s
      = (node_probe_reg_get b s).1 :: reg_get_results bs (node_probe_reg_get b s).2 := rfl

theorem reg_get_run_snd_cons (b : Bool) (bs : List Bool) (s : ProbeRegs) :
    (reg_get_run (b :: bs) s).2 = (reg_get_run bs (node_probe_reg_get b s).2).2 := rfl

theorem run_not_avail : ∀ (reqs : List Bool) (s : ProbeRegs) (r : Nat),
    ¬ reg_avail s r → ¬ reg_avail (reg_get_run reqs s).2 r
  | [], _, _, h => h
  | b :: bs, s, r, h => by
    rw [reg_get_run_snd_cons]
    exact run_not_avail bs _ r (fun hav => h (reg_get_avail_mono b s r hav))

theorem not_mem_results_of_not_avail : ∀ (reqs : List Bool) (s : ProbeRegs) (r : Nat),
    ¬ reg_avail s r → Int.ofNat r ∉ reg_get_results reqs s
  | [], s, r, _ => by simp [reg_get_results, reg_get_run]
  | b :: bs, s, r, h => by
    rw [reg_get_results_cons]
    intro hmem
    rcases List.mem_cons.mp hmem with heq | htail
    · exact h (reg_get_avail_of_success b s r heq.symm)
    · exact not_mem_results_of_not_avail bs _ r
        (fun hav => h (reg_get_avail_mono b s r hav)) htail

theorem not_avail_final_of_mem : ∀ (reqs : List Bool) (s : ProbeRegs) (r : Nat),
    Int.ofNat r ∈ reg_get_results reqs s → ¬ reg_avail (reg_get_run reqs s).2 r
  | [], s, r, h => by simp [reg_get_results, reg_get_run] at h
  | b :: bs, s, r, h => by
    rw [reg_get_results_cons] at h
    rw [reg_get_run_snd_cons]
    rcases List.mem_cons.mp h with heq | htail
    · exact run_not_avail bs _ r (reg_get_not_avail_after b s r heq.symm)
    · exact not_avail_final_of_mem bs _ r htail

/-- C1: over any sequence of acquire calls on one probe's allocator,
mixing the static and dynamic classes arbitrarily (one Bool per call),
no register identifier is ever returned twice — in particular never to
both classes: once returned for either class, a register is never
returned again for either class (the sentinel `-1` is not a register
and is exempt). -/
theorem reg_get_no_reuse : ∀ (reqs : List Bool) (s : ProbeRegs),
    List.Pairwise (fun a b => a ≠ -1 → a ≠ b) (reg_get_results reqs s)
  | [], s => by simp [reg_get_results, reg_get_run]
  | b :: bs, s => by
    rw [reg_get_results_cons]
    refine List.Pairwise.cons ?_ (reg_get_no_reuse bs _)
    intro x hx hne
    rcases reg_get_shape b s with hm1 | ⟨r, _, hr⟩
    · exact absurd hm1 hne
    · rw [hr]
      intro heq
      exact not_mem_results_of_not_avail bs _ r
        (reg_get_not_avail_after b s r hr) (by rwa [← heq] at hx)

/-- C5: once a sequence of acquire calls has returned all three
registers of the file (6, 7, 8 — across both classes combined), every
further `node_probe_reg_get` call on that probe returns the failure
sentinel `-1`, whichever class is requested. -/
theorem reg_get_exhausted (reqs : List Bool) (s : ProbeRegs) (b : Bool)
    (h6 : (6 : Int) ∈ reg_get_results reqs s)
    (h7 : (7 : Int) ∈ reg_get_results reqs s)
    (h8 : (8 : Int) ∈ reg_get_results reqs s) :
    (node_probe_reg_get b (reg_get_run reqs s).2).1 = -1 := by
  have hn6 := not_avail_final_of_mem reqs s 6 h6
  have hn7 := not_avail_final_of_mem reqs s 7 h7
  have hn8 := not_avail_final_of_mem reqs s 8 h8
  cases b with
  | false =>
    have hz : ∀ reg ∈ bpf_scratch_regs,
        (reg_get_run reqs s).2.stat_regs &&& (reg_get_run reqs s).2.dyn_regs
          &&& (1 <<< reg) = 0 := by
      intro reg hmem
      by_contra hne
      have hav := (reg_test_iff _ _ _).mp hne
      have hra : reg_avail (reg_get_run reqs s).2 reg := ⟨hav.1, hav.2⟩
      simp [bpf_scratch_regs] at hmem
      rcases hmem with h | h | h <;> subst h
      · exact hn6 hra
      · exact hn7 hra
      · exact hn8 hra
    simp [node_probe_reg_get, reg_scan_none _ _ _ hz]
  | true =>
    have hz : ∀ reg ∈ bpf_scratch_regs,
        (reg_get_run reqs s).2.dyn_regs &&& (reg_get_run reqs s).2.stat_regs
          &&& (1 <<< reg) = 0 := by
      intro reg hmem
      by_contra hne
      have hav := (reg_test_iff _ _ _).mp hne
      have hra : reg_avail (reg_get_run reqs s).2 reg := ⟨hav.2, hav.1⟩
      simp [bpf_scratch_regs] at hmem
      rcases hmem with h | h | h <;> subst h
      · exact hn6 hra
      · exact hn7 hra
      · exact hn8 hra
    simp [node_probe_reg_get, reg_scan_none _ _ _ hz]

theorem reg_get_exhausted_witness :
    ((6 : Int) ∈ reg_get_results [false, false, false] probe_regs_init) ∧
    ((7 : Int) ∈ reg_get_results [false, false, false] probe_regs_init) ∧
    ((8 : Int) ∈ reg_get_results [false, false, false] probe_regs_init) ∧
    (node_probe_reg_get true (reg_get_run [false, false, false] probe_regs_init).2).1 = -1 ∧
    (node_probe_reg_get false (reg_get_run [false, false, false] probe_regs_init).2).1 = -1 :=
  ⟨by decide, by decide, by decide,
   reg_get_exhausted _ _ true (by decide) (by decide) (by decide),
   reg_get_exhausted _ _ false (by decide) (by decide) (by decide)⟩

theorem runEvents_cons {σ : Type} (pre post : Option (Node → σ → Int × σ))
    (e : WalkEvent) (rest : List WalkEvent) (ctx : σ) :
    runEvents pre post (e :: rest) ctx
      = wbind (applyEvent pre post e ctx) (runEvents pre post rest) := rfl

theorem walk_step {σ : Type} (pre post : Option (Node → σ → Int × σ)) (n : Node)
    (ctx : σ) (ces : List WalkEvent)
    (hch : ∀ c, node_walk_children pre post n c = runEvents pre post ces c)
    (hne : events n = WalkEvent.epre n :: (ces ++ [WalkEvent.epost n])) :
    node_walk pre post n ctx = runEvents pre post (events n) ctx := by
  rw [node_walk, hne, runEvents_cons]
  have happ : applyEvent pre post (WalkEvent.epre n) ctx = applyCb pre n ctx := rfl
  rw [happ]
  apply wbind_congr
  intro c1
  rw [runEvents_append, ← hch c1]
  apply wbind_congr
  intro c2
  exact (runEvents_post_single pre post n c2).symm

mutual

theorem walk_events_aux {σ : Type} (pre post : Option (Node → σ → Int × σ))
    (n : Node) (ctx : σ) :
    node_walk pre post n ctx = runEvents pre post (events n) ctx := by
  cases n with
  | script probes =>
    refine walk_step pre post _ ctx (events_list probes) ?_ ?_
    · intro c
      simp only [node_walk_children]
      exact walk_list_events_aux pre post probes c
    · simp only [events, child_events]
  | probe ps pred stmts =>
    refine walk_step pre post _ ctx
      ((match pred with
        | some p => events p
        | Option.none => []) ++ events_list stmts) ?_ ?_
    · intro c
      cases pred with
      | none =>
        simp only [node_walk_children, List.nil_append]
        exact walk_list_events_aux pre post stmts c
      | some p =>
        simp only [node_walk_children]
        rw [runEvents_append, ← walk_events_aux pre post p c]
        apply wbind_congr
        intro c2
        exact walk_list_events_aux pre post stmts c2
    · cases pred <;> simp only [events, child_events]
  | iff cond thens els tl =>
    refine walk_step pre post _ ctx
      (events cond ++ events_list thens ++
        (match els with
         | some l => events_list l
         | Option.none => [])) ?_ ?_
    · intro c
      simp only [node_walk_children]
      rw [runEvents_append, runEvents_append, wbind_assoc,
        ← walk_events_aux pre post cond c]
      apply wbind_congr
      intro c1
      rw [← walk_list_events_aux pre post thens c1]
      apply wbind_congr
      intro c2
      cases els with
      | none => rfl
      | some l => exact walk_list_events_aux pre post l c2
    · cases els <;> simp only [events, child_events]
  | unroll count stmts =>
    refine walk_step pre post _ ctx (events_list stmts) ?_ ?_
    · intro c
      simp only [node_walk_children]
      exact walk_list_events_aux pre post stmts c
    · simp only [events, child_events]
  | call module func vargs k =>
    refine walk_step pre post _ ctx (events_list vargs) ?_ ?_
    · intro c
      simp only [node_walk_children]
      exact walk_list_events_aux pre post vargs c
    · simp only [events, child_events]
  | method m c =>
    refine walk_step pre post _ ctx (events m ++ events c) ?_ ?_
    · intro c1
      simp only [node_walk_children]
      rw [runEvents_append, ← walk_events_aux pre post m c1]
      apply wbind_congr
      intro c2
      exact walk_events_aux pre post c c2
    · simp only [events, child_events]
  | assign lval expr =>
    refine walk_step pre post _ ctx
      (events lval ++
        (match expr with
         | some e => events e
         | Option.none => [])) ?_ ?_
    · intro c
      simp only [node_walk_children]
      rw [runEvents_append, ← walk_events_aux pre post lval c]
      apply wbind_congr
      intro c2
      cases expr with
      | none => rfl
      | some e => exact walk_events_aux pre post e c2
    · cases expr <;> simp only [events, child_events]
  | binop op l r =>
    refine walk_step pre post _ ctx (events l ++ events r) ?_ ?_
    · intro c
      simp only [node_walk_children]
      rw [runEvents_append, ← walk_events_aux pre post l c]
      apply wbind_congr
      intro c2
      exact walk_events_aux pre post r c2
    · simp only [events, child_events]
  | not e =>
    refine walk_step pre post _ ctx (events e) ?_ ?_
    · intro c
      simp only [node_walk_children]
      exact walk_events_aux pre post e c
    · simp only [events, child_events]
  | map name r =>
    refine walk_step pre post _ ctx (events r) ?_ ?_
    · intro c
      simp only [node_walk_children]
      exact walk_events_aux pre post r c
    · simp only [events, child_events]
  | record vargs k =>
    refine walk_step pre post _ ctx (events_list vargs) ?_ ?_
    · intro c
      simp only [node_walk_children]
      exact walk_list_events_aux pre post vargs c
    · simp only [events, child_events]
  | var name =>
    refine walk_step pre post _ ctx [] ?_ ?_
    · intro c
      simp only [node_walk_children]
      rfl
    · simp only [events, child_events, List.nil_append]
  | str val =>
    refine walk_step pre post _ ctx [] ?_ ?_
    · intro c
      simp only [node_walk_children]
      rfl
    · simp only [events, child_events, List.nil_append]
  | int val =>
    refine walk_step pre post _ ctx [] ?_ ?_
    · intro c
      simp only [node_walk_children]
      rfl
    · simp only [events, child_events, List.nil_append]
  | brk =>
    refine walk_step pre post _ ctx [] ?_ ?_
    · intro c
      simp only [node_walk_children]
      rfl
    · simp only [events, child_events, List.nil_append]
  | cont =>
    refine walk_step pre post _ ctx [] ?_ ?_
    · intro c
      simp only [node_walk_children]
      rfl
    · simp only [events, child_events, List.nil_append]
  | ret =>
    refine walk_step pre post _ ctx [] ?_ ?_
    · intro c
      simp only [node_walk_children]
      rfl
    · simp only [events, child_events, List.nil_append]
  | stack =>
    refine walk_step pre post _ ctx [] ?_ ?_
    · intro c
      simp only [node_walk_children]
      rfl
    · simp only [events, child_events, List.nil_append]
  | noneT =>
    rw [node_walk]
    simp only [events, child_events, List.append_nil]
    rw [runEvents_cons]
    have happ : applyEvent pre post (WalkEvent.epre Node.noneT) ctx
        = applyCb pre Node.noneT ctx := rfl
    rw [happ]
    apply wbind_congr
    intro c1
    simp only [node_walk_children]
    rw [wbind_ne_zero ((-1 : Int), c1) _ (by norm_num)]
    rw [runEvents_cons]
    have hfail : applyEvent pre post WalkEvent.efail c1 = ((-1 : Int), c1) := rfl
    rw [hfail]
    rw [wbind_ne_zero ((-1 : Int), c1) _ (by norm_num)]
termination_by (sizeOf n, 1)

theorem walk_list_events_aux {σ : Type} (pre post : Option (Node → σ → Int × σ)) :
    ∀ (l : List Node) (ctx : σ),
      _node_walk_list pre post l ctx = runEvents pre post (events_list l) ctx
  | [], ctx => by
    simp only [_node_walk_list, events_list]
    rfl
  | n :: rest, ctx => by
    simp only [_node_walk_list, events_list]
    rw [runEvents_append, ← walk_events_aux pre post n ctx]
    apply wbind_congr
    intro c
    exact walk_list_events_aux pre post rest c
termination_by l => (sizeOf l, 0)

end

/-- C2: walker abort propagation.  For every tree and every pair of
optional callbacks, `node_walk` behaves exactly like processing the
fixed traversal-order event sequence `events n` (pre on a node, its
children in order, then post on the node) while stopping at the first
non-zero status, which is returned unchanged as the overall result
(`runEvents`).  Hence if the pre callback returns non-zero on a node,
none of that node's children are visited and its post callback is not
called; no callback scheduled after the aborting one — in particular on
any node later in traversal order, also across sibling lists — is ever
invoked (the context passes through untouched from the abort point);
and the non-zero status is the walk's result. -/
theorem node_walk_abort_propagation {σ : Type} (pre post : Option (Node → σ → Int × σ))
    (n : Node) (ctx : σ) :
    node_walk pre post n ctx = runEvents pre post (events n) ctx :=
  walk_events_aux pre post n ctx

/-- The tree of `if (a > 1) { x = 2; } else { x = 3; }`, built by
composing the constructors exactly as the claim describes. -/
def example_if_tree : Node :=
  node_if_new
    (node_binop_new (node_var_new ("a")) Op.gt (node_int_new 1))
    [node_assign_new (node_var_new ("x")) (some (node_int_new 2))]
    (some [node_assign_new (node_var_new ("x")) (some (node_int_new 3))])

theorem example_if_walk_count :
    node_walk (some (fun (_ : Node) (c : Nat) => ((0 : Int), c + 1))) Option.none
      example_if_tree 0 = (0, 10) := by
  simp [example_if_tree, node_if_new, node_binop_new, node_var_new, node_int_new,
    node_assign_new, node_list_last, node_walk, node_walk_children, _node_walk_list,
    applyCb, wbind]

/-- C4 fails as stated: walking the example tree with a pre-order
counting callback visits 10 nodes, not 8 — the walker also visits the
lvalue variable node of each of the two assignments. -/
theorem example_if_walk_not_eight :
    ¬ ((node_walk (some (fun (_ : Node) (c : Nat) => ((0 : Int), c + 1))) Option.none
        example_if_tree 0).2 = 8) := by
  rw [example_if_walk_count]
  simp

/-- C4, amended: constructing `if (a > 1) { x = 2; } else { x = 3; }`
by composing the node constructors and walking it with a pre-order
callback visits exactly 10 nodes, in the fixed traversal order: the if
node, the condition subtree (binop, var `a`, int 1), then the
then-branch assignment, its lvalue var `x` and its literal 2, then the
else-branch assignment, its lvalue var `x` and its literal 3. -/
theorem example_if_walk_visits_ten :
    (node_walk (some (fun (_ : Node) (c : Nat) => ((0 : Int), c + 1))) Option.none
        example_if_tree 0).2 = 10 ∧
    (node_walk (some (fun (n : Node) (c : List Node) => ((0 : Int), c ++ [n]))) Option.none
        example_if_tree []).2
      = [example_if_tree,
         node_binop_new (node_var_new ("a")) Op.gt (node_int_new 1),
         node_var_new ("a"),
         node_int_new 1,
         node_assign_new (node_var_new ("x")) (some (node_int_new 2)),
         node_var_new ("x"),
         node_int_new 2,
         node_assign_new (node_var_new ("x")) (some (node_int_new 3)),
         node_var_new ("x"),
         node_int_new 3] := by
  constructor
  · rw [example_if_walk_count]
  · simp [example_if_tree, node_if_new, node_binop_new, node_var_new, node_int_new,
      node_assign_new, node_list_last, node_walk, node_walk_children, _node_walk_list,
      applyCb, wbind]

/-- Whether an event list contains the forced `TYPE_NONE` failure. -/
def has_fail : List WalkEvent → Bool
  | [] => false
  | e :: rest =>
    (match e with
     | WalkEvent.efail => true
     | _ => false) || has_fail rest

/-- The nodes of the post events of an event list, in order. -/
def post_nodes : List WalkEvent → List Node
  | [] => []
  | e :: rest =>
    (match e with
     | WalkEvent.epost n => [n]
     | _ => []) ++ post_nodes rest

/-- The resources `_node_free` releases over a node list, in order. -/
def frees_of_list : List Node → List Resource
  | [] => []
  | n :: rest => node_frees n ++ frees_of_list rest

theorem has_fail_append (a b : List WalkEvent) :
    has_fail (a ++ b) = (has_fail a || has_fail b) := by
  induction a with
  | nil => simp [has_fail]
  | cons e rest ih => simp [has_fail, ih, Bool.or_assoc]

theorem post_nodes_append (a b : List WalkEvent) :
    post_nodes (a ++ b) = post_nodes a ++ post_nodes b := by
  induction a with
  | nil => simp [post_nodes]
  | cons e rest ih => simp [post_nodes, ih]

theorem runEvents_recorder : ∀ (evs : List WalkEvent) (ctx : List Resource),
    has_fail evs = false →
    runEvents Option.none (some _node_free) evs ctx
      = (0, ctx ++ frees_of_list (post_nodes evs))
  | [], ctx, _ => by simp [runEvents, post_nodes, frees_of_list]
  | e :: rest, ctx, h => by
    cases e with
    | epre n =>
      rw [runEvents_cons]
      have ha : applyEvent Option.none (some _node_free) (WalkEvent.epre n) ctx
          = (0, ctx) := rfl
      rw [ha, wbind_zero]
      rw [runEvents_recorder rest ctx (by simpa [has_fail] using h)]
      simp [post_nodes]
    | epost n =>
      rw [runEvents_cons]
      have ha : applyEvent Option.none (some _node_free) (WalkEvent.epost n) ctx
          = (0, ctx ++ node_frees n) := rfl
      rw [ha, wbind_zero]
      rw [runEvents_recorder rest (ctx ++ node_frees n) (by simpa [has_fail] using h)]
      simp [post_nodes, frees_of_list]
    | efail => simp [has_fail] at h

mutual

theorem events_describe : ∀ (n : Node), no_none n = true →
    has_fail (events n) = false ∧ post_nodes (events n) = postorder n
  | .script probes, h => by
    simp only [no_none] at h
    obtain ⟨h1, h2⟩ := events_list_describe probes h
    constructor
    · simp [events, child_events, has_fail, has_fail_append, h1]
    · simp [events, child_events, postorder, post_nodes, post_nodes_append, h2]
  | .probe ps pred stmts, h => by
    cases pred with
    | none =>
      simp only [no_none, Bool.true_and] at h
      obtain ⟨h1, h2⟩ := events_list_describe stmts h
      constructor
      · simp [events, child_events, has_fail, has_fail_append, h1]
      · simp [events, child_events, postorder, post_nodes, post_nodes_append, h2]
    | some p =>
      simp only [no_none, Bool.and_eq_true] at h
      obtain ⟨h1, h2⟩ := events_list_describe stmts h.2
      obtain ⟨h3, h4⟩ := events_describe p h.1
      constructor
      · simp [events, child_events, has_fail, has_fail_append, h1, h3]
      · simp [events, child_events, postorder, post_nodes, post_nodes_append, h2, h4]
  | .iff cond thens els tl, h => by
    cases els with
    | none =>
      simp only [no_none, Bool.and_eq_true, Bool.and_true] at h
      obtain ⟨hc, ht⟩ := h
      obtain ⟨h1, h2⟩ := events_describe cond hc
      obtain ⟨h3, h4⟩ := events_list_describe thens ht
      constructor
      · simp [events, child_events, has_fail, has_fail_append, h1, h3]
      · simp [events, child_events, postorder, post_nodes, post_nodes_append, h2, h4]
    | some l =>
      simp only [no_none, Bool.and_eq_true] at h
      obtain ⟨⟨hc, ht⟩, he⟩ := h
      obtain ⟨h1, h2⟩ := events_describe cond hc
      obtain ⟨h3, h4⟩ := events_list_describe thens ht
      obtain ⟨h5, h6⟩ := events_list_describe l he
      constructor
      · simp [events, child_events, has_fail, has_fail_append, h1, h3, h5]
      · simp [events, child_events, postorder, post_nodes, post_nodes_append, h2, h4, h6]
  | .unroll count stmts, h => by
    simp only [no_none] at h
    obtain ⟨h1, h2⟩ := events_list_describe stmts h
    constructor
    · simp [events, child_events, has_fail, has_fail_append, h1]
    · simp [events, child_events, postorder, post_nodes, post_nodes_append, h2]
  | .call module func vargs k, h => by
    simp only [no_none] at h
    obtain ⟨h1, h2⟩ := events_list_describe vargs h
    constructor
    · simp [events, child_events, has_fail, has_fail_append, h1]
    · simp [events, child_events, postorder, post_nodes, post_nodes_append, h2]
  | .method m c, h => by
    simp only [no_none, Bool.and_eq_true] at h
    obtain ⟨h1, h2⟩ := events_describe m h.1
    obtain ⟨h3, h4⟩ := events_describe c h.2
    constructor
    · simp [events, child_events, has_fail, has_fail_append, h1, h3]
    · simp [events, child_events, postorder, post_nodes, post_nodes_append, h2, h4]
  | .assign lval expr, h => by
    cases expr with
    | none =>
      simp only [no_none, Bool.and_true] at h
      obtain ⟨h1, h2⟩ := events_describe lval h
      constructor
      · simp [events, child_events, has_fail, has_fail_append, h1]
      · simp [events, child_events, postorder, post_nodes, post_nodes_append, h2]
    | some e =>
      simp only [no_none, Bool.and_eq_true] at h
      obtain ⟨h1, h2⟩ := events_describe lval h.1
      obtain ⟨h3, h4⟩ := events_describe e h.2
      constructor
      · simp [events, child_events, has_fail, has_fail_append, h1, h3]
      · simp [events, child_events, postorder, post_nodes, post_nodes_append, h2, h4]
  | .binop op l r, h => by
    simp only [no_none, Bool.and_eq_true] at h
    obtain ⟨h1, h2⟩ := events_describe l h.1
    obtain ⟨h3, h4⟩ := events_describe r h.2
    constructor
    · simp [events, child_events, has_fail, has_fail_append, h1, h3]
    · simp [events, child_events, postorder, post_nodes, post_nodes_append, h2, h4]
  | .not e, h => by
    simp only [no_none] at h
    obtain ⟨h1, h2⟩ := events_describe e h
    constructor
    · simp [events, child_events, has_fail, has_fail_append, h1]
    · simp [events, child_events, postorder, post_nodes, post_nodes_append, h2]
  | .map name r, h => by
    simp only [no_none] at h
    obtain ⟨h1, h2⟩ := events_describe r h
    constructor
    · simp [events, child_events, has_fail, has_fail_append, h1]
    · simp [events, child_events, postorder, post_nodes, post_nodes_append, h2]
  | .record vargs k, h => by
    simp only [no_none] at h
    obtain ⟨h1, h2⟩ := events_list_describe vargs h
    constructor
    · simp [events, child_events, has_fail, has_fail_append, h1]
    · simp [events, child_events, postorder, post_nodes, post_nodes_append, h2]
  | .var name, _ => by
    constructor
    · simp [events, child_events, has_fail]
    · simp [events, child_events, postorder, post_nodes]
  | .str val, _ => by
    constructor
    · simp [events, child_events, has_fail]
    · simp [events, child_events, postorder, post_nodes]
  | .int val, _ => by
    constructor
    · simp [events, child_events, has_fail]
    · simp [events, child_events, postorder, post_nodes]
  | .brk, _ => by
    constructor
    · simp [events, child_events, has_fail]
    · simp [events, child_events, postorder, post_nodes]
  | .cont, _ => by
    constructor
    · simp [events, child_events, has_fail]
    · simp [events, child_events, postorder, post_nodes]
  | .ret, _ => by
    constructor
    · simp [events, child_events, has_fail]
    · simp [events, child_events, postorder, post_nodes]
  | .stack, _ => by
    constructor
    · simp [events, child_events, has_fail]
    · simp [events, child_events, postorder, post_nodes]
  | .noneT, h => by simp [no_none] at h
termination_by n => (sizeOf n, 1)

theorem events_list_describe : ∀ (l : List Node), no_none_list l = true →
    has_fail (events_list l) = false ∧ post_nodes (events_list l) = postorder_list l
  | [], _ => by
    constructor
    · simp [events_list, has_fail]
    · simp [events_list, postorder_list, post_nodes]
  | n :: rest, h => by
    simp only [no_none_list, Bool.and_eq_true] at h
    obtain ⟨h1, h2⟩ := events_describe n h.1
    obtain ⟨h3, h4⟩ := events_list_describe rest h.2
    constructor
    · simp [events_list, has_fail_append, h1, h3]
    · simp [events_list, postorder_list, post_nodes_append, h2, h4]
termination_by l => (sizeOf l, 0)

end

theorem node_free_walk (t : Node) (h : no_none t = true) :
    node_free t = frees_of_list (postorder t) := by
  have hd := events_describe t h
  rw [node_free, walk_events_aux, runEvents_recorder (events t) [] hd.1]
  simp [hd.2]

/-- Projection to freed nodes. -/
def res_node : Resource → Option Node
  | .rnode n => some n
  | _ => Option.none

/-- Projection to freed `dyn` annotations, identified by owning node. -/
def res_dyn : Resource → Option Node
  | .rdyn n => some n
  | _ => Option.none

/-- Projection to freed heap strings. -/
def res_str : Resource → Option String
  | .rstr s => some s
  | _ => Option.none

/-- Kinds whose `dyn` annotation is shared with the symbol table. -/
def is_map_or_var : Node → Bool
  | .map _ _ => true
  | .var _ => true
  | _ => false

/-- Var nodes (whose name string `_node_free` does not free). -/
def is_var : Node → Bool
  | .var _ => true
  | _ => false

/-- The strings `_node_free` actually releases over a node list: the
owned strings of every node except var nodes, whose name is skipped. -/
def freed_strings_expected : List Node → List String
  | [] => []
  | n :: rest =>
    (match is_var n with
     | true => []
     | false => owned_strings n) ++ freed_strings_expected rest

theorem node_frees_proj (n : Node) :
    (node_frees n).filterMap res_node = [n] ∧
    (node_frees n).filterMap res_dyn
      = (match is_map_or_var n with
         | true => []
         | false => [n]) ∧
    (node_frees n).filterMap res_str
      = (match is_var n with
         | true => []
         | false => owned_strings n) := by
  cases n with
  | call module func vargs k =>
    cases module <;>
      exact ⟨by simp [node_frees, res_node, res_dyn, res_str],
             by simp [node_frees, res_node, res_dyn, res_str, is_map_or_var],
             by simp [node_frees, res_node, res_dyn, res_str, is_var, owned_strings]⟩
  | _ =>
    exact ⟨by simp [node_frees, res_node, res_dyn, res_str],
           by simp [node_frees, res_node, res_dyn, res_str, is_map_or_var],
           by simp [node_frees, res_node, res_dyn, res_str, is_var, owned_strings]⟩

theorem frees_list_proj : ∀ (l : List Node),
    (frees_of_list l).filterMap res_node = l ∧
    (frees_of_list l).filterMap res_dyn = l.filter (fun n => !(is_map_or_var n)) ∧
    (frees_of_list l).filterMap res_str = freed_strings_expected l
  | [] => by simp [frees_of_list, freed_strings_expected]
  | n :: rest => by
    obtain ⟨h1, h2, h3⟩ := frees_list_proj rest
    obtain ⟨g1, g2, g3⟩ := node_frees_proj n
    refine ⟨?_, ?_, ?_⟩
    · simp [frees_of_list, List.filterMap_append, g1, h1]
    · cases hm : is_map_or_var n <;>
        simp [frees_of_list, List.filterMap_append, g2, h2, hm, List.filter_cons]
    · cases hv : is_var n <;>
        simp [frees_of_list, List.filterMap_append, g3, h3, hv, freed_strings_expected]

/-- C6 fails as stated: `node_var_new` takes ownership of its heap name
string (per the spec's ownership rule), but `_node_free` never frees a
var node's string — destroying the tree consisting of the single var
node `a` releases the node itself and nothing else, leaking the name. -/
theorem node_free_var_string_leak :
    (("a") ∈ owned_strings (node_var_new ("a"))) ∧
    Resource.rstr ("a") ∉ node_free (node_var_new ("a")) := by
  constructor
  · simp [owned_strings, node_var_new]
  · have h : node_free (node_var_new ("a")) = [Resource.rnode (Node.var ("a"))] := by
      rw [node_free_walk _ (by simp [node_var_new, no_none])]
      simp [node_var_new, postorder, frees_of_list, node_frees]
    rw [h]
    simp

/-- C6, amended: after the single post-order destruction walk of
`node_free` over a whole tree (one with no `TYPE_NONE` node, as all
constructor-built trees are), every node has been freed exactly once in
post-order; the exclusively-owned `dyn` annotation of every node that
is not a map or a var has been freed, while the shared map/var
annotations are not freed (the symbol table owns them); and every heap
string whose ownership a constructor took has been freed — except the
name string of var nodes, which `_node_free` does not free (see
`node_free_var_string_leak`; the claim asserts all owned strings are
freed, which fails there). -/
theorem node_free_completeness (t : Node) (h : no_none t = true) :
    (node_free t).filterMap res_node = postorder t ∧
    (node_free t).filterMap res_dyn = (postorder t).filter (fun n => !(is_map_or_var n)) ∧
    (node_free t).filterMap res_str = freed_strings_expected (postorder t) := by
  rw [node_free_walk t h]
  exact frees_list_proj (postorder t)

theorem node_free_completeness_witness :
    (no_none (node_map_new ("m") Option.none) = true) ∧
    ((node_free (node_map_new ("m") Option.none)).filterMap res_node
        = postorder (node_map_new ("m") Option.none) ∧
     (node_free (node_map_new ("m") Option.none)).filterMap res_dyn
        = (postorder (node_map_new ("m") Option.none)).filter (fun n => !(is_map_or_var n)) ∧
     (node_free (node_map_new ("m") Option.none)).filterMap res_str
        = freed_strings_expected (postorder (node_map_new ("m") Option.none))) :=
  ⟨by simp [node_map_new, node_rec_new, node_str_new, no_none, no_none_list],
   node_free_completeness _
     (by simp [node_map_new, node_rec_new, node_str_new, no_none, no_none_list])⟩
